import Mathlib

/-
Verification of the multi-engine OCR consensus selector
(src/extractors/ocr_selector.py) against its natural-language
specification.

The Python code is shallowly embedded: strings are lists of characters,
Python floats are rationals, the engine-weight dictionary is an
association list, raised ValueError exceptions are `Except.error` values.
The pairwise text similarity used by the selector is
`difflib.SequenceMatcher(None, a, b).ratio()`; the embedding below
reproduces that algorithm faithfully: the longest-matching-block scan
(the `j2len` chain dynamic program), the autojunk "popular element"
filter (active when the second sequence has length >= 200), the
backward/forward extension loops, and the recursive matching-block
decomposition.  With `isjunk = None` the `bjunk` set is empty, so the
two junk-extension loops of `find_longest_match` never fire and the
non-junk extension loops reduce to plain equality extension; they are
embedded in that reduced form.
-/

namespace JOCR

/-- Text orientation values (`TextOrientation` in models/data_models.py). -/
inductive TextOrientation where
  | horizontal
  | vertical
  | mixed
deriving DecidableEq, Repr

/-- Selection strategy values (`OCRSelectionStrategy` in models/data_models.py). -/
inductive OCRSelectionStrategy where
  | confidence_weighted
  | majority_vote
  | learned
deriving DecidableEq, Repr

/-- The `.value` string of each strategy member (it is a `str` enum). -/
def OCRSelectionStrategy.value : OCRSelectionStrategy → String
  | .confidence_weighted => "confidence_weighted"
  | .majority_vote => "majority_vote"
  | .learned => "learned"

/-- Validation status values (`ValidationStatus` in models/data_models.py). -/
inductive ValidationStatus where
  | pending
  | validated
  | corrected
  | rejected
deriving DecidableEq, Repr

/-- Raw OCR output from a single engine (`OCRResult`).  The opaque
fields `bounding_boxes` and `metadata` are never read by the selector
and are omitted; `text` is a list of characters. -/
structure OCRResult where
  engine : String
  text : List Char
  confidence : ℚ
  orientation : TextOrientation
  processing_time : ℚ
deriving DecidableEq, Repr

/-- Merged result from multiple OCR engines (`OCRConsensus`). -/
structure OCRConsensus where
  selected_text : List Char
  selected_engine : String
  all_results : List OCRResult
  consensus_score : ℚ
  orientation : TextOrientation
  validation_status : ValidationStatus
  corrected_text : Option (List Char)
  user_notes : Option (List Char)
deriving DecidableEq, Repr

/-- The pydantic validation constraint on `OCRResult.confidence`
(`Field(ge=0.0, le=1.0)`). -/
def OCRResult.Valid (r : OCRResult) : Prop :=
  0 ≤ r.confidence ∧ r.confidence ≤ 1

/-! ## difflib.SequenceMatcher

`similarity a b` below is `difflib.SequenceMatcher(None, a, b).ratio()`:
twice the total size of the matching blocks divided by the combined
length of the two sequences. -/

/-- Length of the run of positions, walking two reversed slices in
parallel from the ends of the original slices, on which the characters
are equal and the second-sequence character is not junk.  This is the
value the `j2len` chain of `find_longest_match` assigns to a pair of
end positions: chains only pass through positions `j` whose element
survives in `b2j`, i.e. is not popular/junk. -/
def matchRun (pop : Char → Bool) : List Char → List Char → Nat
  | x :: xs, y :: ys => if x = y ∧ pop y = false then matchRun pop xs ys + 1 else 0
  | _, _ => 0

/-- The slice `a[lo:hi]`, reversed (so its head is position `hi - 1`). -/
def sliceRev (a : List Char) (lo hi : Nat) : List Char :=
  ((a.drop lo).take (hi - lo)).reverse

/-- The chain value `j2len[j]` computed in row `i` of
`find_longest_match` over the window `a[alo:ahi] x b[blo:bhi]`: the
longest common matching suffix of `a[alo:i+1]` and `b[blo:j+1]`. -/
def runW (pop : Char → Bool) (a b : List Char) (alo blo i j : Nat) : Nat :=
  matchRun pop (sliceRev a alo (i + 1)) (sliceRev b blo (j + 1))

/-- One inner-loop step of the `find_longest_match` scan: at end
positions `(i, j)` with chain value `k`, the best block is replaced
exactly when `k` strictly exceeds the best size so far, becoming
`(i - k + 1, j - k + 1, k)`. -/
def scanStepJ (pop : Char → Bool) (a b : List Char) (alo blo i : Nat)
    (best : Nat × Nat × Nat) (j : Nat) : Nat × Nat × Nat :=
  if best.2.2 < runW pop a b alo blo i j then
    (i + 1 - runW pop a b alo blo i j, j + 1 - runW pop a b alo blo i j,
      runW pop a b alo blo i j)
  else best

/-- The double scan of `find_longest_match`: rows `i` in `[alo, ahi)`,
positions `j` in `[blo, bhi)` in ascending order, starting from
`(alo, blo, 0)`.  Positions where the characters differ or where
`b[j]` is junk have chain value `0` and never replace the best block,
so scanning every `j` is equivalent to scanning `b2j[a[i]]`. -/
def scanBest (pop : Char → Bool) (a b : List Char) (alo ahi blo bhi : Nat) :
    Nat × Nat × Nat :=
  (List.range' alo (ahi - alo)).foldl
    (fun best i => (List.range' blo (bhi - blo)).foldl (scanStepJ pop a b alo blo i) best)
    (alo, blo, 0)

/-- Both positions exist and hold equal characters. -/
def charEq (a : List Char) (i : Nat) (b : List Char) (j : Nat) : Prop :=
  (a.get? i).isSome ∧ a.get? i = b.get? j

instance (a : List Char) (i : Nat) (b : List Char) (j : Nat) :
    Decidable (charEq a i b j) := by
  unfold charEq; infer_instance

/-- The backward extension loop of `find_longest_match` (with an empty
junk set the condition is plain equality):
`while besti > alo and bestj > blo and a[besti-1] == b[bestj-1]`.
Structured on `besti`, which the loop decrements; at `besti = 0` the
`besti > alo` guard is false and the loop exits, exactly as written
here. -/
def extendBack (a b : List Char) (alo blo : Nat) : Nat → Nat → Nat → Nat × Nat × Nat
  | 0, bestj, k => (0, bestj, k)
  | besti + 1, bestj, k =>
    if alo < besti + 1 ∧ blo < bestj ∧ charEq a besti b (bestj - 1) then
      extendBack a b alo blo besti (bestj - 1) (k + 1)
    else (besti + 1, bestj, k)

/-- The forward extension loop of `find_longest_match`, on explicit
fuel.  Each iteration increments the block size `k` and requires
`besti + k < ahi`, so `ahi - (besti + k)` iterations always suffice:
with that fuel (as passed by `extFwd`) the fuel can only run out when
the loop guard is already false, and the `0` case's `k` is exactly the
loop's exit value. -/
def extFwdF (a b : List Char) (ahi bhi besti bestj : Nat) : Nat → Nat → Nat
  | 0, k => k
  | fuel + 1, k =>
    if besti + k < ahi ∧ bestj + k < bhi ∧ charEq a (besti + k) b (bestj + k) then
      extFwdF a b ahi bhi besti bestj fuel (k + 1)
    else k

/-- The forward extension loop of `find_longest_match`:
`while besti+bestsize < ahi and bestj+bestsize < bhi and
a[besti+bestsize] == b[bestj+bestsize]`. -/
def extFwd (a b : List Char) (ahi bhi : Nat) (besti bestj k : Nat) : Nat :=
  extFwdF a b ahi bhi besti bestj (ahi - (besti + k)) k

/-- `find_longest_match(alo, ahi, blo, bhi)`: the scan followed by the
backward and forward extension loops. -/
def flm (pop : Char → Bool) (a b : List Char) (alo ahi blo bhi : Nat) :
    Nat × Nat × Nat :=
  match scanBest pop a b alo ahi blo bhi with
  | (s1, s2, s3) =>
    match extendBack a b alo blo s1 s2 s3 with
    | (e1, e2, e3) => (e1, e2, extFwd a b ahi bhi e1 e2 e3)

/-- A generic invariant-preservation lemma for `List.foldl`. -/
theorem foldl_preserve {α β : Type} {P : β → Prop} (f : β → α → β) (l : List α)
    (init : β) (h0 : P init) (hstep : ∀ acc x, x ∈ l → P acc → P (f acc x)) :
    P (l.foldl f init) := by
  induction l generalizing init with
  | nil => exact h0
  | cons x xs ih =>
      exact ih (f init x) (hstep init x (List.mem_cons_self x xs) h0)
        (fun acc y hy => hstep acc y (List.mem_cons_of_mem x hy))

theorem matchRun_le_left (pop : Char → Bool) (x y : List Char) :
    matchRun pop x y ≤ x.length := by
  induction x generalizing y with
  | nil => simp [matchRun]
  | cons c xs ih =>
      cases y with
      | nil => simp [matchRun]
      | cons d ys =>
          simp only [matchRun, List.length_cons]
          split
          · exact Nat.succ_le_succ (ih ys)
          · omega

theorem matchRun_le_right (pop : Char → Bool) (x y : List Char) :
    matchRun pop x y ≤ y.length := by
  induction x generalizing y with
  | nil => simp [matchRun]
  | cons c xs ih =>
      cases y with
      | nil => simp [matchRun]
      | cons d ys =>
          simp only [matchRun, List.length_cons]
          split
          · exact Nat.succ_le_succ (ih ys)
          · omega

theorem sliceRev_length_le (a : List Char) (lo hi : Nat) :
    (sliceRev a lo hi).length ≤ hi - lo := by
  simp only [sliceRev, List.length_reverse, List.length_take]
  omega

theorem runW_le_i (pop : Char → Bool) (a b : List Char) (alo blo i j : Nat) :
    runW pop a b alo blo i j ≤ i + 1 - alo :=
  le_trans (matchRun_le_left _ _ _) (sliceRev_length_le a alo (i + 1))

theorem runW_le_j (pop : Char → Bool) (a b : List Char) (alo blo i j : Nat) :
    runW pop a b alo blo i j ≤ j + 1 - blo :=
  le_trans (matchRun_le_right _ _ _) (sliceRev_length_le b blo (j + 1))

/-- The window bounds maintained by the scan: the best block lies in
the window whenever its size is nonzero, and a size-zero best is still
the initial `(alo, blo, 0)`. -/
def ScanInv (alo ahi blo bhi bi bj bk : Nat) : Prop :=
  (bk = 0 → bi = alo ∧ bj = blo) ∧
    (bk ≠ 0 → alo ≤ bi ∧ bi + bk ≤ ahi ∧ blo ≤ bj ∧ bj + bk ≤ bhi)

theorem scanBest_inv (pop : Char → Bool) (a b : List Char) (alo ahi blo bhi : Nat) :
    ScanInv alo ahi blo bhi (scanBest pop a b alo ahi blo bhi).1
      (scanBest pop a b alo ahi blo bhi).2.1 (scanBest pop a b alo ahi blo bhi).2.2 := by
  unfold scanBest
  apply foldl_preserve
    (P := fun best : Nat × Nat × Nat => ScanInv alo ahi blo bhi best.1 best.2.1 best.2.2)
  · exact ⟨fun _ => ⟨rfl, rfl⟩, fun h => absurd rfl h⟩
  · intro acc i hi hacc
    have hi' : i < ahi := by
      have := List.mem_range'_1.mp hi
      omega
    apply foldl_preserve
      (P := fun best : Nat × Nat × Nat => ScanInv alo ahi blo bhi best.1 best.2.1 best.2.2)
    · exact hacc
    · intro best j hj hbest
      have hj' : j < bhi := by
        have := List.mem_range'_1.mp hj
        omega
      unfold scanStepJ
      split
      · rename_i hlt
        have h1 := runW_le_i pop a b alo blo i j
        have h2 := runW_le_j pop a b alo blo i j
        show ScanInv alo ahi blo bhi (i + 1 - runW pop a b alo blo i j)
          (j + 1 - runW pop a b alo blo i j) (runW pop a b alo blo i j)
        exact ⟨fun h0 => absurd h0 (by omega), fun _ => by omega⟩
      · exact hbest

theorem extendBack_inv (a b : List Char) (alo blo : Nat) :
    ∀ besti bestj k, alo ≤ besti → blo ≤ bestj →
      (extendBack a b alo blo besti bestj k).1 ≤ besti ∧
      alo ≤ (extendBack a b alo blo besti bestj k).1 ∧
      blo ≤ (extendBack a b alo blo besti bestj k).2.1 ∧
      (extendBack a b alo blo besti bestj k).1 + (extendBack a b alo blo besti bestj k).2.2 =
        besti + k ∧
      (extendBack a b alo blo besti bestj k).2.1 +
        (extendBack a b alo blo besti bestj k).2.2 = bestj + k ∧
      k ≤ (extendBack a b alo blo besti bestj k).2.2 := by
  intro besti
  induction besti with
  | zero =>
      intro bestj k h1 h2
      exact ⟨le_refl _, h1, h2, rfl, rfl, le_refl _⟩
  | succ besti ih =>
      intro bestj k h1 h2
      rw [extendBack]
      split
      · rename_i h
        obtain ⟨ha, hb, _⟩ := h
        have := ih (bestj - 1) (k + 1) (by omega) (by omega)
        obtain ⟨c1, c2, c3, c4, c5, c6⟩ := this
        refine ⟨by omega, c2, c3, by omega, by omega, by omega⟩
      · exact ⟨le_refl _, h1, h2, rfl, rfl, le_refl _⟩

theorem extFwdF_inv (a b : List Char) (ahi bhi besti bestj : Nat) :
    ∀ fuel k,
      k ≤ extFwdF a b ahi bhi besti bestj fuel k ∧
      (besti + k ≤ ahi → besti + extFwdF a b ahi bhi besti bestj fuel k ≤ ahi) ∧
      (bestj + k ≤ bhi → bestj + extFwdF a b ahi bhi besti bestj fuel k ≤ bhi) := by
  intro fuel
  induction fuel with
  | zero =>
      intro k
      exact ⟨le_refl _, fun h => h, fun h => h⟩
  | succ n ih =>
      intro k
      rw [extFwdF]
      split
      · rename_i h
        obtain ⟨ha, hb, _⟩ := h
        have := ih (k + 1)
        obtain ⟨c1, c2, c3⟩ := this
        exact ⟨by omega, fun _ => c2 (by omega), fun _ => c3 (by omega)⟩
      · exact ⟨le_refl _, fun h => h, fun h => h⟩

theorem extFwd_inv (a b : List Char) (ahi bhi : Nat) :
    ∀ besti bestj k,
      k ≤ extFwd a b ahi bhi besti bestj k ∧
      (besti + k ≤ ahi → besti + extFwd a b ahi bhi besti bestj k ≤ ahi) ∧
      (bestj + k ≤ bhi → bestj + extFwd a b ahi bhi besti bestj k ≤ bhi) := by
  intro besti bestj k
  exact extFwdF_inv a b ahi bhi besti bestj (ahi - (besti + k)) k

/-- Bounds on the block returned by `find_longest_match`: a nonzero
block lies inside the window. -/
theorem flm_bounds (pop : Char → Bool) (a b : List Char) (alo ahi blo bhi : Nat)
    {i j k : Nat} (h : flm pop a b alo ahi blo bhi = (i, j, k)) (hk : k ≠ 0) :
    alo ≤ i ∧ i + k ≤ ahi ∧ blo ≤ j ∧ j + k ≤ bhi := by
  have hscan := scanBest_inv pop a b alo ahi blo bhi
  unfold flm at h
  rcases hs : scanBest pop a b alo ahi blo bhi with ⟨s1, s2, s3⟩
  rw [hs] at h hscan
  dsimp only at h hscan
  rcases he : extendBack a b alo blo s1 s2 s3 with ⟨e1, e2, e3⟩
  rw [he] at h
  dsimp only at h
  simp only [Prod.mk.injEq] at h
  obtain ⟨hi, hj, hkk⟩ := h
  subst hi; subst hj; subst hkk
  by_cases h0 : s3 = 0
  · -- the scan found nothing: best is (alo, blo, 0)
    obtain ⟨hs1, hs2⟩ := hscan.1 h0
    subst h0
    have heb : extendBack a b alo blo s1 s2 0 = (s1, s2, 0) := by
      cases s1 with
      | zero => rfl
      | succ m =>
          rw [extendBack, if_neg]
          intro hcond
          omega
    rw [heb] at he
    simp only [Prod.mk.injEq] at he
    obtain ⟨he1, he2, he3⟩ := he
    subst he1
    subst he2
    subst he3
    by_cases hin : s1 ≤ ahi ∧ s2 ≤ bhi
    · have hfwd := extFwd_inv a b ahi bhi s1 s2 0
      refine ⟨by omega, ?_, by omega, ?_⟩
      · exact hfwd.2.1 (by omega)
      · exact hfwd.2.2 (by omega)
    · -- window degenerate: the forward loop cannot start
      exfalso
      apply hk
      unfold extFwd
      rcases hf : ahi - (s1 + 0) with _ | m
      · rfl
      · rw [extFwdF, if_neg]
        intro hcond
        exact hin ⟨by omega, by omega⟩
  · -- the scan found a block inside the window
    obtain ⟨b1, b2, b3, b4⟩ := hscan.2 h0
    have hd := extendBack_inv a b alo blo s1 s2 s3 b1 b3
    rw [he] at hd
    dsimp only at hd
    obtain ⟨d1, d2, d3, d4, d5, d6⟩ := hd
    have hfwd := extFwd_inv a b ahi bhi e1 e2 e3
    obtain ⟨c1, c2, c3⟩ := hfwd
    exact ⟨d2, c2 (by omega), d3, c3 (by omega)⟩

/-- Total size of the matching blocks of `get_matching_blocks` over a
window, on explicit fuel: the longest match, plus the blocks of the
sub-windows to its left and right (each recursed into only when
nonempty on both sides, as in the source).  Every recursion strictly
shrinks the window (the found block is nonempty and inside it, by
`flm_bounds`), so a window's width is always enough fuel, and a window
whose fuel has run out is empty and would contribute `0` anyway. -/
def matchTotalF (pop : Char → Bool) (a b : List Char) : Nat → Nat → Nat → Nat → Nat → Nat
  | 0, _, _, _, _ => 0
  | fuel + 1, alo, ahi, blo, bhi =>
    match flm pop a b alo ahi blo bhi with
    | (i, j, k) =>
      if k = 0 then 0
      else
        k + (if alo < i ∧ blo < j then matchTotalF pop a b fuel alo i blo j else 0)
          + (if i + k < ahi ∧ j + k < bhi then matchTotalF pop a b fuel (i + k) ahi (j + k) bhi
              else 0)

/-- Total size of the matching blocks over a window. -/
def matchTotal (pop : Char → Bool) (a b : List Char) (alo ahi blo bhi : Nat) : Nat :=
  matchTotalF pop a b (ahi - alo) alo ahi blo bhi

/-- The autojunk "popular element" test of `SequenceMatcher.__chain_b`:
with no explicit junk function, an element of `b` is purged from `b2j`
when `len(b) >= 200` and it occurs more than `len(b) // 100 + 1` times. -/
def isPopular (b : List Char) (c : Char) : Bool :=
  decide (200 ≤ b.length) && decide (b.length / 100 + 1 < b.count c)

/-- Total matched elements of `SequenceMatcher(None, a, b)`. -/
def matchTotalFull (a b : List Char) : Nat :=
  matchTotal (isPopular b) a b 0 a.length 0 b.length

/-- `difflib.SequenceMatcher(None, a, b).ratio()`: `2.0 * M / T` where
`T` is the combined length, and `1.0` when `T` is zero. -/
def similarity (a b : List Char) : ℚ :=
  if a.length + b.length = 0 then 1
  else 2 * (matchTotalFull a b : ℚ) / ((a.length : ℚ) + (b.length : ℚ))

/-! ## OCRSelector -/

/-- `self.engine_weights.get(engine, 1.0)`: the stored weight, or `1.0`
for an unseen engine.  The weight dictionary is an association list. -/
def weight_get (w : List (String × ℚ)) (engine : String) : ℚ :=
  (w.lookup engine).getD 1

/-- The built-in default weights returned by `load_weights` when no file
is read (`manga_ocr` gets a slight preference for Japanese). -/
def default_weights : List (String × ℚ) :=
  [("tesseract", 1), ("easyocr", 1), ("manga_ocr", 6 / 5)]

/-- One step of the best-result loops of `confidence_weighted_selection`
and `learned_selection`: the incumbent `(best_result, best_score)` is
replaced exactly when the new score is strictly greater. -/
def selStep (score : OCRResult → ℚ) (acc : Option OCRResult × ℚ) (r : OCRResult) :
    Option OCRResult × ℚ :=
  if acc.2 < score r then (some r, score r) else acc

/-- The best-result loop, starting from `best_result = None`,
`best_score = -1` as in the source. -/
def bestBy (score : OCRResult → ℚ) (results : List OCRResult) : Option OCRResult :=
  (results.foldl (selStep score) (none, -1)).1

/-- The score of `confidence_weighted_selection`:
`result.confidence * weight`. -/
def cwScore (w : List (String × ℚ)) (r : OCRResult) : ℚ :=
  r.confidence * weight_get w r.engine

/-- `OCRSelector.confidence_weighted_selection`. -/
def confidence_weighted_selection (w : List (String × ℚ)) (results : List OCRResult) :
    Option OCRResult :=
  bestBy (cwScore w) results

/-- The score of `learned_selection`:
`(result.confidence * 0.3) + (weight * 0.7)`. -/
def learnedScore (w : List (String × ℚ)) (r : OCRResult) : ℚ :=
  r.confidence * (3 / 10) + weight_get w r.engine * (7 / 10)

/-- `OCRSelector.learned_selection` (dead code in the source: the
dispatch in `select_best` never reaches it). -/
def learned_selection (w : List (String × ℚ)) (results : List OCRResult) :
    Option OCRResult :=
  bestBy (learnedScore w) results

/-- `results[i].text`, with `[]` out of range (all uses are in range). -/
def textAt (results : List OCRResult) (i : Nat) : List Char :=
  ((results.get? i).map OCRResult.text).getD []

/-- The average similarity of `results[i]` to every other result, as
computed by `majority_vote_selection`: positions are compared by index
(`if i != j`), and the total is divided by `len(results) - 1`. -/
def avgSimTo (results : List OCRResult) (i : Nat) : ℚ :=
  ((List.range results.length).map
      (fun j => if i = j then 0 else similarity (textAt results i) (textAt results j))).sum /
    ((results.length : ℚ) - 1)

/-- One comparison step of Python's `max(..., key=...)`: the incumbent
is replaced only on a strictly greater key, so the first maximum wins. -/
def maxStep {α : Type} (acc : Option (α × ℚ)) (x : α × ℚ) : Option (α × ℚ) :=
  match acc with
  | none => some x
  | some m => if m.2 < x.2 then some x else acc

/-- Python's `max(..., key=...)` over already-scored pairs: returns the
first pair with strictly maximal second component, `none` on `[]`. -/
def maxBySnd {α : Type} (l : List (α × ℚ)) : Option (α × ℚ) :=
  l.foldl maxStep none

/-- `OCRSelector.majority_vote_selection`: score every result by its
average similarity to the others and return the first maximum. -/
def majority_vote_selection (results : List OCRResult) : Option OCRResult :=
  ((maxBySnd (results.enum.map (fun p => (p.2, avgSimTo results p.1)))).map Prod.fst)

/-- The list of pairwise similarities built by `calculate_consensus`:
`ratio(results[i].text, results[j].text)` for `0 <= i < j < n` in loop
order. -/
def pairSims (results : List OCRResult) : List ℚ :=
  (List.range results.length).flatMap
    (fun i =>
      (List.range' (i + 1) (results.length - (i + 1))).map
        (fun j => similarity (textAt results i) (textAt results j)))

/-- `OCRSelector.calculate_consensus`: `1.0` for fewer than two results,
otherwise the mean of the pairwise similarities (`0.0` were the pair
list empty, as in the source's guard). -/
def calculate_consensus (results : List OCRResult) : ℚ :=
  if results.length < 2 then 1
  else if (pairSims results).length = 0 then 0
  else (pairSims results).sum / ((pairSims results).length : ℚ)

/-- Inserting one element into the key list of a `collections.Counter`:
a new key goes to the back, an existing key keeps its slot. -/
def ckIns (ks : List TextOrientation) (o : TextOrientation) : List TextOrientation :=
  if o ∈ ks then ks else ks ++ [o]

/-- The keys of `collections.Counter(orientations)` in insertion order,
i.e. in order of first occurrence. -/
def counterKeys (l : List TextOrientation) : List TextOrientation :=
  l.foldl ckIns []

/-- `OCRSelector.determine_orientation`: `Counter(...).most_common(1)[0][0]`.
`most_common(1)` is `heapq.nlargest(1, items, key=count)`, which is
Python's `max` over the counter items in insertion order: the first key
with strictly maximal count wins.  On an empty list the source raises
`IndexError`; that case is unreachable (callers pass nonempty lists) and
is given the arbitrary value `horizontal` here. -/
def determine_orientation (results : List OCRResult) : TextOrientation :=
  match maxBySnd ((counterKeys (results.map OCRResult.orientation)).map
      (fun k => (k, ((results.map OCRResult.orientation).count k : ℚ)))) with
  | some p => p.1
  | none => TextOrientation.horizontal

/-- The strategy dispatch of `select_best`, reproducing the source's
chain: `if strategy == CONFIDENCE_WEIGHTED ... elif strategy ==
MAJORITY_VOTE ... elif strategy == MAJORITY_VOTE ...` — the third test
repeats the second, so `learned_selection` is dead code and the
`LEARNED` value falls through to the `else: raise` branch (`none`). -/
def strategyDispatch (w : List (String × ℚ)) (results : List OCRResult)
    (strategy : OCRSelectionStrategy) : Option (Option OCRResult) :=
  if strategy = OCRSelectionStrategy.confidence_weighted then
    some (confidence_weighted_selection w results)
  else if strategy = OCRSelectionStrategy.majority_vote then
    some (majority_vote_selection results)
  else if strategy = OCRSelectionStrategy.majority_vote then
    some (learned_selection w results)
  else none

/-- `OCRSelector.select_best`.  Raised `ValueError`s are `Except.error`
with the source's message; the inner `some none` case (a selection loop
returning `None`) would be an `AttributeError` in Python and is shown
unreachable for the inputs reaching it. -/
def select_best (w : List (String × ℚ)) (results : List OCRResult)
    (strategy : OCRSelectionStrategy) : Except String OCRConsensus :=
  match results with
  | [] => .error "No OCR results provided"
  | [r] =>
    .ok ⟨r.text, r.engine, [r], r.confidence, r.orientation,
      ValidationStatus.pending, none, none⟩
  | _ =>
    match strategyDispatch w results strategy with
    | none => .error ("Unknown strategy: " ++ strategy.value)
    | some none => .error "AttributeError: selection returned no result"
    | some (some selected) =>
      .ok ⟨selected.text, selected.engine, results, calculate_consensus results,
        determine_orientation results, ValidationStatus.pending, none, none⟩

/-- What `json.load` does on an existing weights file: either produce a
mapping or raise.  (The source's `from pydantic import json` actually
binds a module with no `load` at all, so in Python every existing file
raises; the embedding models the most favorable reading, stdlib `json`,
under which well-formed files parse and corrupt or unreadable ones
raise `JSONDecodeError`/`OSError`.) -/
inductive WeightsFile where
  | parses (m : List (String × ℚ))
  | corrupt
deriving DecidableEq

/-- `OCRSelector.load_weights`: if a path is configured (non-`None` and
non-empty, Python truthiness) and the file exists, it is opened and
parsed with no exception handling; otherwise the default weights are
returned.  `fs` maps a path to the file found there, `none` if absent. -/
def load_weights (weights_path : Option String) (fs : String → Option WeightsFile) :
    Except String (List (String × ℚ)) :=
  match weights_path with
  | some p =>
    if p ≠ "" then
      match fs p with
      | some (.parses m) => .ok m
      | some .corrupt => .error "json.load raised"
      | none => .ok default_weights
    else .ok default_weights
  | none => .ok default_weights

/-- `engine_weights[k] = v` on the association list: overwrite in place
if the key is present (dict insertion order keeps its slot), else append. -/
def dictSet (w : List (String × ℚ)) (k : String) (v : ℚ) : List (String × ℚ) :=
  if (w.lookup k).isSome then w.map (fun p => if p.1 = k then (k, v) else p)
  else w ++ [(k, v)]

/-- `OCRSelector.update_weights` as a transformation of the in-memory
weight dictionary (the trailing `_save_weights()` call only writes the
same dictionary out): seed an unseen engine at `1.0`, multiply by
`1.05`/`0.95`, clamp with `max(0.1, min(2.0, w))`. -/
def update_weights (w : List (String × ℚ)) (engine : String) (was_correct : Bool) :
    List (String × ℚ) :=
  let w0 := if (w.lookup engine).isSome then w else dictSet w engine 1
  let adjusted :=
    if was_correct then weight_get w0 engine * (21 / 20)
    else weight_get w0 engine * (19 / 20)
  dictSet w0 engine (max (1 / 10) (min 2 adjusted))

/-! ## Bounds on the similarity score -/

theorem matchTotalF_le (pop : Char → Bool) (a b : List Char) :
    ∀ fuel alo ahi blo bhi,
      matchTotalF pop a b fuel alo ahi blo bhi ≤ ahi - alo ∧
      matchTotalF pop a b fuel alo ahi blo bhi ≤ bhi - blo := by
  intro fuel
  induction fuel with
  | zero =>
      intro alo ahi blo bhi
      exact ⟨Nat.zero_le _, Nat.zero_le _⟩
  | succ m ih =>
      intro alo ahi blo bhi
      rw [matchTotalF]
      split
      rename_i i j k heq
      split
      · exact ⟨Nat.zero_le _, Nat.zero_le _⟩
      · rename_i hk
        have hb := flm_bounds pop a b alo ahi blo bhi heq hk
        have hL :
            (if alo < i ∧ blo < j then matchTotalF pop a b m alo i blo j else 0) ≤ i - alo ∧
            (if alo < i ∧ blo < j then matchTotalF pop a b m alo i blo j else 0) ≤ j - blo := by
          split
          · exact ih alo i blo j
          · exact ⟨Nat.zero_le _, Nat.zero_le _⟩
        have hR :
            (if i + k < ahi ∧ j + k < bhi then matchTotalF pop a b m (i + k) ahi (j + k) bhi
              else 0) ≤ ahi - (i + k) ∧
            (if i + k < ahi ∧ j + k < bhi then matchTotalF pop a b m (i + k) ahi (j + k) bhi
              else 0) ≤ bhi - (j + k) := by
          split
          · exact ih (i + k) ahi (j + k) bhi
          · exact ⟨Nat.zero_le _, Nat.zero_le _⟩
        omega

theorem matchTotalFull_le (a b : List Char) :
    matchTotalFull a b ≤ a.length ∧ matchTotalFull a b ≤ b.length := by
  have h := matchTotalF_le (isPopular b) a b a.length 0 a.length 0 b.length
  simpa [matchTotalFull, matchTotal] using h

theorem similarity_nonneg (a b : List Char) : 0 ≤ similarity a b := by
  unfold similarity
  split
  · norm_num
  · positivity

theorem similarity_le_one (a b : List Char) : similarity a b ≤ 1 := by
  unfold similarity
  split
  · norm_num
  · rename_i h
    have hM := matchTotalFull_le a b
    have h1 : (matchTotalFull a b : ℚ) ≤ (a.length : ℚ) := by exact_mod_cast hM.1
    have h2 : (matchTotalFull a b : ℚ) ≤ (b.length : ℚ) := by exact_mod_cast hM.2
    have hpos : (0 : ℚ) < (a.length : ℚ) + (b.length : ℚ) := by
      have : 0 < a.length + b.length := Nat.pos_of_ne_zero h
      exact_mod_cast this
    rw [div_le_one hpos]
    linarith

/-! ## Reflexivity of the similarity score

For `a == b` the scan only ever installs diagonal best blocks
(`besti = bestj`), because any off-diagonal chain value is bounded by a
diagonal chain value seen no later in the scan order; the extension
loops then stretch a diagonal block to the whole string. -/

theorem matchRun_le_diag_right (pop : Char → Bool) :
    ∀ x y, matchRun pop x y ≤ matchRun pop y y := by
  intro x y
  induction y generalizing x with
  | nil => cases x <;> simp [matchRun]
  | cons d ys ih =>
      cases x with
      | nil => exact Nat.zero_le _
      | cons c xs =>
          simp only [matchRun]
          split
          · rename_i hc
            rw [if_pos (show True ∧ pop d = false from ⟨trivial, hc.2⟩)]
            exact Nat.succ_le_succ (ih xs)
          · exact Nat.zero_le _

theorem matchRun_le_diag_left (pop : Char → Bool) :
    ∀ x y, matchRun pop x y ≤ matchRun pop x x := by
  intro x
  induction x with
  | nil => intro y; simp [matchRun]
  | cons c xs ih =>
      intro y
      cases y with
      | nil => simp [matchRun]
      | cons d ys =>
          simp only [matchRun]
          split
          · rename_i hc
            rw [if_pos (show True ∧ pop c = false from ⟨trivial, by rw [hc.1]; exact hc.2⟩)]
            exact Nat.succ_le_succ (ih ys)
          · exact Nat.zero_le _

theorem foldl_scanStep_noup (pop : Char → Bool) (a b : List Char) (alo blo i : Nat)
    (best : Nat × Nat × Nat) (l : List Nat)
    (h : ∀ j ∈ l, runW pop a b alo blo i j ≤ best.2.2) :
    l.foldl (scanStepJ pop a b alo blo i) best = best := by
  induction l with
  | nil => rfl
  | cons j js ih =>
      have hstep : scanStepJ pop a b alo blo i best j = best := by
        unfold scanStepJ
        rw [if_neg]
        have := h j (List.mem_cons_self j js)
        omega
      simp only [List.foldl_cons, hstep]
      exact ih (fun j' hj' => h j' (List.mem_cons_of_mem j hj'))

theorem rowSelf (pop : Char → Bool) (a : List Char) (n i : Nat) (hi : i < n)
    (best : Nat × Nat × Nat) (hdiag : best.1 = best.2.1)
    (hprev : ∀ i' < i, runW pop a a 0 0 i' i' ≤ best.2.2) :
    ((List.range' 0 n).foldl (scanStepJ pop a a 0 0 i) best).1 =
        ((List.range' 0 n).foldl (scanStepJ pop a a 0 0 i) best).2.1 ∧
      best.2.2 ≤ ((List.range' 0 n).foldl (scanStepJ pop a a 0 0 i) best).2.2 ∧
      runW pop a a 0 0 i i ≤ ((List.range' 0 n).foldl (scanStepJ pop a a 0 0 i) best).2.2 := by
  have hsplit : List.range' 0 n =
      List.range' 0 i ++ i :: List.range' (i + 1) (n - i - 1) := by
    conv_lhs => rw [show n = (n - i) + i by omega]
    rw [← List.range'_append_1 0 i (n - i)]
    congr 1
    rw [show n - i = (n - i - 1) + 1 by omega, List.range'_succ]
    norm_num
  -- the prefix of the row (j < i): the chain value is at most a diagonal value
  -- of an earlier row, so the best block never changes
  have hpre : ∀ j ∈ List.range' 0 i, runW pop a a 0 0 i j ≤ best.2.2 := by
    intro j hj
    have hj' : j < i := by
      have := List.mem_range'_1.mp hj
      omega
    have hle : runW pop a a 0 0 i j ≤ runW pop a a 0 0 j j :=
      matchRun_le_diag_right pop _ _
    exact le_trans hle (hprev j hj')
  rw [hsplit, List.foldl_append,
    foldl_scanStep_noup pop a a 0 0 i best (List.range' 0 i) hpre]
  -- the diagonal position j = i, then the suffix of the row (j > i)
  simp only [List.foldl_cons]
  have hmid : ∀ q : Nat × Nat × Nat, q = scanStepJ pop a a 0 0 i best i →
      q.1 = q.2.1 ∧ best.2.2 ≤ q.2.2 ∧ runW pop a a 0 0 i i ≤ q.2.2 := by
    intro q hq
    unfold scanStepJ at hq
    by_cases hcase : best.2.2 < runW pop a a 0 0 i i
    · rw [if_pos hcase] at hq
      subst hq
      refine ⟨rfl, ?_, ?_⟩
      · show best.2.2 ≤ runW pop a a 0 0 i i
        omega
      · show runW pop a a 0 0 i i ≤ runW pop a a 0 0 i i
        exact le_refl _
    · rw [if_neg hcase] at hq
      subst hq
      exact ⟨hdiag, le_refl _, by omega⟩
  obtain ⟨m1, m2, m3⟩ := hmid _ rfl
  have hpost : ∀ j ∈ List.range' (i + 1) (n - i - 1),
      runW pop a a 0 0 i j ≤ (scanStepJ pop a a 0 0 i best i).2.2 := by
    intro j hj
    have hle : runW pop a a 0 0 i j ≤ runW pop a a 0 0 i i :=
      matchRun_le_diag_left pop _ _
    exact le_trans hle m3
  rw [foldl_scanStep_noup pop a a 0 0 i _ (List.range' (i + 1) (n - i - 1)) hpost]
  exact ⟨m1, m2, m3⟩

theorem scanSelfAux (pop : Char → Bool) (a : List Char) (n : Nat) :
    ∀ r, r ≤ n →
      (((List.range' 0 r).foldl
            (fun best i => (List.range' 0 n).foldl (scanStepJ pop a a 0 0 i) best)
            (0, 0, 0)).1 =
          ((List.range' 0 r).foldl
            (fun best i => (List.range' 0 n).foldl (scanStepJ pop a a 0 0 i) best)
            (0, 0, 0)).2.1) ∧
        (∀ i' < r, runW pop a a 0 0 i' i' ≤
          ((List.range' 0 r).foldl
            (fun best i => (List.range' 0 n).foldl (scanStepJ pop a a 0 0 i) best)
            (0, 0, 0)).2.2) := by
  intro r
  induction r with
  | zero => exact fun _ => ⟨rfl, fun i' hi' => absurd hi' (by omega)⟩
  | succ r ih =>
      intro hr
      obtain ⟨ih1, ih2⟩ := ih (by omega)
      have hsplit : List.range' 0 (r + 1) = List.range' 0 r ++ [r] := by
        rw [List.range'_1_concat]
        simp
      rw [hsplit, List.foldl_append]
      simp only [List.foldl_cons, List.foldl_nil]
      have hrow := rowSelf pop a n r (by omega) _ ih1 ih2
      refine ⟨hrow.1, ?_⟩
      intro i' hi'
      rcases Nat.lt_succ_iff_lt_or_eq.mp hi' with h | h
      · exact le_trans (ih2 i' h) hrow.2.1
      · subst h
        exact hrow.2.2

theorem scanBest_self_diag (pop : Char → Bool) (a : List Char) (n : Nat) :
    (scanBest pop a a 0 n 0 n).1 = (scanBest pop a a 0 n 0 n).2.1 := by
  unfold scanBest
  simp only [Nat.sub_zero]
  exact (scanSelfAux pop a n n (le_refl n)).1

theorem extendBack_self_diag (a : List Char) :
    ∀ d k, d ≤ a.length → extendBack a a 0 0 d d k = (0, 0, k + d) := by
  intro d
  induction d with
  | zero =>
      intro k _
      rfl
  | succ d ih =>
      intro k hd
      have hc : (0 : Nat) < d + 1 ∧ (0 : Nat) < d + 1 ∧ charEq a d a (d + 1 - 1) := by
        refine ⟨by omega, by omega, ?_, rfl⟩
        rw [List.get?_eq_getElem?, List.getElem?_eq_getElem (by omega)]
        simp
      rw [extendBack, if_pos hc]
      simp only [Nat.add_sub_cancel]
      rw [ih (k + 1) (by omega)]
      have harith : k + 1 + d = k + (d + 1) := by omega
      rw [harith]

theorem extFwdF_self (a : List Char) (n : Nat) :
    ∀ fuel k, fuel = n - k → k ≤ n → n ≤ a.length →
      extFwdF a a n n 0 0 fuel k = n := by
  intro fuel
  induction fuel with
  | zero =>
      intro k hf hk _
      show k = n
      omega
  | succ m ih =>
      intro k hf hk hn
      have hlt : k < n := by omega
      have hc : 0 + k < n ∧ 0 + k < n ∧ charEq a (0 + k) a (0 + k) := by
        refine ⟨by omega, by omega, ?_, rfl⟩
        rw [List.get?_eq_getElem?, List.getElem?_eq_getElem (by omega)]
        simp
      rw [extFwdF, if_pos hc]
      exact ih (k + 1) (by omega) (by omega) hn

theorem extFwd_self (a : List Char) (n k : Nat) (hk : k ≤ n) (hn : n ≤ a.length) :
    extFwd a a n n 0 0 k = n := by
  unfold extFwd
  exact extFwdF_self a n (n - (0 + k)) k (by omega) hk hn

theorem flm_self (pop : Char → Bool) (a : List Char) :
    flm pop a a 0 a.length 0 a.length = (0, 0, a.length) := by
  have hscan := scanBest_inv pop a a 0 a.length 0 a.length
  have hdiag := scanBest_self_diag pop a a.length
  unfold flm
  rcases hs : scanBest pop a a 0 a.length 0 a.length with ⟨s1, s2, s3⟩
  rw [hs] at hscan hdiag
  dsimp only at hscan hdiag ⊢
  subst hdiag
  have hle : s1 ≤ a.length := by
    by_cases h0 : s3 = 0
    · have := hscan.1 h0
      omega
    · have := hscan.2 h0
      omega
  have hsum : s3 + s1 ≤ a.length := by
    by_cases h0 : s3 = 0
    · have := hscan.1 h0
      omega
    · have := hscan.2 h0
      omega
  rw [extendBack_self_diag a s1 s3 hle]
  dsimp only
  rw [extFwd_self a a.length (s3 + s1) hsum (le_refl _)]

theorem matchTotalFull_self (a : List Char) : matchTotalFull a a = a.length := by
  unfold matchTotalFull matchTotal
  simp only [Nat.sub_zero]
  rcases hlen : a.length with _ | m
  · rfl
  · have hf := flm_self (isPopular a) a
    rw [hlen] at hf
    rw [matchTotalF, hf]
    simp

theorem similarity_self (a : List Char) : similarity a a = 1 := by
  unfold similarity
  split
  · rfl
  · rename_i h
    rw [matchTotalFull_self]
    have hpos : (0 : ℚ) < (a.length : ℚ) + (a.length : ℚ) := by
      have : 0 < a.length + a.length := Nat.pos_of_ne_zero h
      exact_mod_cast this
    field_simp
    ring

/-! ## First-maximum characterisation of the selection loops -/

theorem selStep_aux (score : OCRResult → ℚ) :
    ∀ (l : List OCRResult) (o : Option OCRResult) (t : ℚ),
      (l.foldl (selStep score) (o, t) = (o, t) ∧ ∀ x ∈ l, score x ≤ t) ∨
        (∃ r l1 l2, l = l1 ++ r :: l2 ∧
          l.foldl (selStep score) (o, t) = (some r, score r) ∧
          t < score r ∧ (∀ x ∈ l1, score x < score r) ∧ (∀ x ∈ l2, score x ≤ score r)) := by
  intro l
  induction l with
  | nil =>
      intro o t
      exact Or.inl ⟨rfl, by simp⟩
  | cons x xs ih =>
      intro o t
      by_cases hx : t < score x
      · have hstep : selStep score (o, t) x = (some x, score x) := by
          unfold selStep
          rw [if_pos hx]
        rcases ih (some x) (score x) with ⟨h1, h2⟩ | ⟨r, l1, l2, hsplit, hres, hlt, hb, ha⟩
        · refine Or.inr ⟨x, [], xs, rfl, ?_, hx, by simp, h2⟩
          simp only [List.foldl_cons, hstep, h1]
        · refine Or.inr ⟨r, x :: l1, l2, by rw [hsplit]; rfl, ?_, lt_trans hx hlt, ?_, ha⟩
          · simp only [List.foldl_cons, hstep, hres]
          · intro y hy
            rcases List.mem_cons.mp hy with h | h
            · subst h
              exact hlt
            · exact hb y h
      · have hstep : selStep score (o, t) x = (o, t) := by
          unfold selStep
          rw [if_neg hx]
        rcases ih o t with ⟨h1, h2⟩ | ⟨r, l1, l2, hsplit, hres, hlt, hb, ha⟩
        · refine Or.inl ⟨?_, ?_⟩
          · simp only [List.foldl_cons, hstep, h1]
          · intro y hy
            rcases List.mem_cons.mp hy with h | h
            · subst h
              exact le_of_not_lt hx
            · exact h2 y h
        · refine Or.inr ⟨r, x :: l1, l2, by rw [hsplit]; rfl, ?_, hlt, ?_, ha⟩
          · simp only [List.foldl_cons, hstep, hres]
          · intro y hy
            rcases List.mem_cons.mp hy with h | h
            · subst h
              exact lt_of_le_of_lt (le_of_not_lt hx) hlt
            · exact hb y h

/-- The selection loops of `confidence_weighted_selection` and
`learned_selection` return the first result attaining the maximal
score, provided every score beats the `-1` seed. -/
theorem bestBy_spec (score : OCRResult → ℚ) (results : List OCRResult)
    (hne : results ≠ []) (hpos : ∀ r ∈ results, -1 < score r) :
    ∃ r l1 l2, results = l1 ++ r :: l2 ∧ bestBy score results = some r ∧
      (∀ x ∈ l1, score x < score r) ∧ (∀ x ∈ l2, score x ≤ score r) := by
  unfold bestBy
  rcases selStep_aux score results none (-1) with ⟨_, h2⟩ | ⟨r, l1, l2, hsplit, hres, _, hb, ha⟩
  · cases results with
    | nil => exact absurd rfl hne
    | cons x xs =>
        have h1 := hpos x (List.mem_cons_self x xs)
        have h2' := h2 x (List.mem_cons_self x xs)
        exact absurd h2' (by linarith)
  · exact ⟨r, l1, l2, hsplit, by rw [hres], hb, ha⟩

theorem maxStep_aux {α : Type} :
    ∀ (l : List (α × ℚ)) (m : α × ℚ),
      (l.foldl maxStep (some m) = some m ∧ ∀ x ∈ l, x.2 ≤ m.2) ∨
        (∃ r l1 l2, l = l1 ++ r :: l2 ∧ l.foldl maxStep (some m) = some r ∧ m.2 < r.2 ∧
          (∀ x ∈ l1, x.2 < r.2) ∧ (∀ x ∈ l2, x.2 ≤ r.2)) := by
  intro l
  induction l with
  | nil =>
      intro m
      exact Or.inl ⟨rfl, by simp⟩
  | cons x xs ih =>
      intro m
      by_cases hx : m.2 < x.2
      · have hstep : maxStep (some m) x = some x := by
          show (if m.2 < x.2 then some x else some m) = some x
          rw [if_pos hx]
        rcases ih x with ⟨h1, h2⟩ | ⟨r, l1, l2, hsplit, hres, hlt, hb, ha⟩
        · refine Or.inr ⟨x, [], xs, rfl, ?_, hx, by simp, h2⟩
          simp only [List.foldl_cons, hstep, h1]
        · refine Or.inr ⟨r, x :: l1, l2, by rw [hsplit]; rfl, ?_, lt_trans hx hlt, ?_, ha⟩
          · simp only [List.foldl_cons, hstep, hres]
          · intro y hy
            rcases List.mem_cons.mp hy with h | h
            · subst h
              exact hlt
            · exact hb y h
      · have hstep : maxStep (some m) x = some m := by
          show (if m.2 < x.2 then some x else some m) = some m
          rw [if_neg hx]
        rcases ih m with ⟨h1, h2⟩ | ⟨r, l1, l2, hsplit, hres, hlt, hb, ha⟩
        · refine Or.inl ⟨?_, ?_⟩
          · simp only [List.foldl_cons, hstep, h1]
          · intro y hy
            rcases List.mem_cons.mp hy with h | h
            · subst h
              exact le_of_not_lt hx
            · exact h2 y h
        · refine Or.inr ⟨r, x :: l1, l2, by rw [hsplit]; rfl, ?_, hlt, ?_, ha⟩
          · simp only [List.foldl_cons, hstep, hres]
          · intro y hy
            rcases List.mem_cons.mp hy with h | h
            · subst h
              exact lt_of_le_of_lt (le_of_not_lt hx) hlt
            · exact hb y h

/-- Python's `max` by second component returns the first pair attaining
the maximum. -/
theorem maxBySnd_spec {α : Type} (l : List (α × ℚ)) (hne : l ≠ []) :
    ∃ r l1 l2, l = l1 ++ r :: l2 ∧ maxBySnd l = some r ∧
      (∀ x ∈ l1, x.2 < r.2) ∧ (∀ x ∈ l2, x.2 ≤ r.2) := by
  cases l with
  | nil => exact absurd rfl hne
  | cons x xs =>
      unfold maxBySnd
      simp only [List.foldl_cons]
      have hfirst : maxStep (none : Option (α × ℚ)) x = some x := rfl
      rw [hfirst]
      rcases maxStep_aux xs x with ⟨h1, h2⟩ | ⟨r, l1, l2, hsplit, hres, hlt, hb, ha⟩
      · exact ⟨x, [], xs, rfl, by rw [h1], by simp, h2⟩
      · refine ⟨r, x :: l1, l2, by rw [hsplit]; rfl, by rw [hres], ?_, ha⟩
        intro y hy
        rcases List.mem_cons.mp hy with h | h
        · subst h
          exact hlt
        · exact hb y h

/-! ## The orientation counter -/

theorem ckAux (l : List TextOrientation) :
    ∀ (rest p ks : List TextOrientation), l = p ++ rest →
      (∀ x, x ∈ ks ↔ x ∈ p) →
      List.Pairwise (fun x y => List.indexOf x l ≤ List.indexOf y l) ks →
      (∀ x, x ∈ rest.foldl ckIns ks ↔ x ∈ l) ∧
        List.Pairwise (fun x y => List.indexOf x l ≤ List.indexOf y l)
          (rest.foldl ckIns ks) := by
  intro rest
  induction rest with
  | nil =>
      intro p ks hl hmem hpw
      subst hl
      constructor
      · intro x
        rw [List.foldl_nil]
        simpa using hmem x
      · simpa using hpw
  | cons o rest ih =>
      intro p ks hl hmem hpw
      rw [List.foldl_cons]
      apply ih (p ++ [o]) (ckIns ks o)
      · rw [hl]
        simp
      · intro x
        unfold ckIns
        by_cases ho : o ∈ ks
        · rw [if_pos ho]
          rw [hmem x]
          constructor
          · intro hx
            exact List.mem_append_left _ hx
          · intro hx
            rcases List.mem_append.mp hx with h | h
            · exact h
            · have : x = o := by simpa using h
              subst this
              exact (hmem x).mp ho
        · rw [if_neg ho]
          simp only [List.mem_append, hmem x, List.mem_singleton]
      · unfold ckIns
        by_cases ho : o ∈ ks
        · rw [if_pos ho]
          exact hpw
        · rw [if_neg ho]
          rw [List.pairwise_append]
          refine ⟨hpw, by simp, ?_⟩
          intro x hx y hy
          have hyo : y = o := by simpa using hy
          rw [hyo]
          have hxp : x ∈ p := (hmem x).mp hx
          have hop : o ∉ p := fun hc => ho ((hmem o).mpr hc)
          rw [hl]
          rw [List.indexOf_append_of_mem hxp, List.indexOf_append_of_not_mem hop,
            List.indexOf_cons_self]
          have := List.indexOf_lt_length.mpr hxp
          omega

theorem counterKeys_spec (l : List TextOrientation) :
    (∀ x, x ∈ counterKeys l ↔ x ∈ l) ∧
      List.Pairwise (fun x y => List.indexOf x l ≤ List.indexOf y l) (counterKeys l) := by
  have h := ckAux l l [] [] (by simp) (by simp) (by simp)
  simpa [counterKeys] using h

/-- `determine_orientation` returns the most frequent orientation among
the results, ties broken in favour of the value first encountered in
input order. -/
theorem determine_orientation_spec (results : List OCRResult) (hne : results ≠ []) :
    determine_orientation results ∈ results.map OCRResult.orientation ∧
      (∀ o ∈ results.map OCRResult.orientation,
        (results.map OCRResult.orientation).count o ≤
          (results.map OCRResult.orientation).count (determine_orientation results)) ∧
      (∀ o ∈ results.map OCRResult.orientation,
        (results.map OCRResult.orientation).count o =
            (results.map OCRResult.orientation).count (determine_orientation results) →
          List.indexOf (determine_orientation results) (results.map OCRResult.orientation) ≤
            List.indexOf o (results.map OCRResult.orientation)) := by
  obtain ⟨hmem, hpw⟩ := counterKeys_spec (results.map OCRResult.orientation)
  have hosne : results.map OCRResult.orientation ≠ [] := by
    simpa using hne
  have hkne : counterKeys (results.map OCRResult.orientation) ≠ [] := by
    intro hk
    apply hosne
    rw [List.eq_nil_iff_forall_not_mem]
    intro x hx
    have hx' := (hmem x).mpr hx
    rw [hk] at hx'
    simp at hx'
  have hmne : (counterKeys (results.map OCRResult.orientation)).map
      (fun k => (k, ((results.map OCRResult.orientation).count k : ℚ))) ≠ [] := by
    simpa using hkne
  obtain ⟨r, l1, l2, hsplit, hmax, hb, ha⟩ := maxBySnd_spec _ hmne
  have hdo : determine_orientation results = r.1 := by
    unfold determine_orientation
    rw [hmax]
  -- transfer the split of the mapped list to a split of the key list
  rcases List.map_eq_append_iff.mp hsplit with ⟨k1, ktail, hkeys, hm1, hm2⟩
  rcases List.map_eq_cons_iff.mp hm2 with ⟨w, k2, htail, hw, hm3⟩
  have hr1 : r.1 = w := by
    rw [← hw]
  have hrcount : r.2 = ((results.map OCRResult.orientation).count r.1 : ℚ) := by
    rw [← hw]
  rw [hdo]
  have hwmem : w ∈ counterKeys (results.map OCRResult.orientation) := by
    rw [hkeys, htail]
    exact List.mem_append_right _ (List.mem_cons_self w k2)
  refine ⟨?_, ?_, ?_⟩
  · rw [hr1]
    exact (hmem w).mp hwmem
  · intro o ho
    have hok : o ∈ counterKeys (results.map OCRResult.orientation) := (hmem o).mpr ho
    have hopair : (o, ((results.map OCRResult.orientation).count o : ℚ)) ∈ l1 ++ r :: l2 := by
      rw [← hsplit]
      exact List.mem_map_of_mem _ hok
    have hle : ((results.map OCRResult.orientation).count o : ℚ) ≤ r.2 := by
      rcases List.mem_append.mp hopair with h | h
      · exact le_of_lt (hb _ h)
      · rcases List.mem_cons.mp h with h | h
        · exact le_of_eq (congrArg Prod.snd h)
        · exact ha _ h
    rw [hrcount] at hle
    exact_mod_cast hle
  · intro o ho hcnt
    have hok : o ∈ counterKeys (results.map OCRResult.orientation) := (hmem o).mpr ho
    have hopair : (o, ((results.map OCRResult.orientation).count o : ℚ)) ∈ l1 ++ r :: l2 := by
      rw [← hsplit]
      exact List.mem_map_of_mem _ hok
    rcases List.mem_append.mp hopair with h | h
    · -- impossible: the count equals the maximum but elements of l1 are strictly below it
      have hlt' : ((results.map OCRResult.orientation).count o : ℚ) < r.2 := hb _ h
      rw [hrcount] at hlt'
      have hlt : (results.map OCRResult.orientation).count o <
          (results.map OCRResult.orientation).count r.1 := by exact_mod_cast hlt'
      omega
    · rcases List.mem_cons.mp h with h | h
      · have : o = r.1 := congrArg Prod.fst h
        rw [this]
      · -- o sits behind the winner in the key list, so its first
        -- occurrence is no earlier
        have hok2 : o ∈ k2 := by
          have : (o, ((results.map OCRResult.orientation).count o : ℚ)) ∈
              List.map (fun k => (k, ((results.map OCRResult.orientation).count k : ℚ))) k2 := by
            rw [hm3]
            exact h
          rcases List.mem_map.mp this with ⟨k, hk, hkeq⟩
          have : k = o := congrArg Prod.fst hkeq
          rw [← this]
          exact hk
        have hsub : (w :: k2).Sublist (counterKeys (results.map OCRResult.orientation)) := by
          rw [hkeys, htail]
          exact List.sublist_append_right k1 (w :: k2)
        have hpw2 := hpw.sublist hsub
        have := (List.pairwise_cons.mp hpw2).1 o hok2
        rw [hr1]
        exact this

/-! ## The weight dictionary -/

theorem lookup_map_set (w : List (String × ℚ)) (k : String) (v : ℚ)
    (h : (w.lookup k).isSome) :
    (w.map (fun p => if p.1 = k then (k, v) else p)).lookup k = some v := by
  induction w with
  | nil => simp [List.lookup] at h
  | cons p ps ih =>
      by_cases hpk : p.1 = k
      · simp only [List.map_cons, if_pos hpk]
        simp [List.lookup]
      · simp only [List.map_cons, if_neg hpk]
        have hbeq : (k == p.1) = false := by
          simp only [beq_eq_false_iff_ne, ne_eq]
          exact fun hc => hpk hc.symm
        simp only [List.lookup, hbeq] at h ⊢
        exact ih h

theorem lookup_append_new (w : List (String × ℚ)) (k : String) (v : ℚ)
    (h : w.lookup k = none) :
    (w ++ [(k, v)]).lookup k = some v := by
  induction w with
  | nil => simp [List.lookup]
  | cons p ps ih =>
      by_cases hpk : p.1 = k
      · have hbeq : (k == p.1) = true := by
          simp [hpk]
        simp [List.lookup, hbeq] at h
      · have hbeq : (k == p.1) = false := by
          simp only [beq_eq_false_iff_ne, ne_eq]
          exact fun hc => hpk hc.symm
        simp only [List.lookup, hbeq] at h
        simp only [List.cons_append, List.lookup, hbeq]
        exact ih h

theorem lookup_dictSet (w : List (String × ℚ)) (k : String) (v : ℚ) :
    (dictSet w k v).lookup k = some v := by
  unfold dictSet
  split
  · rename_i hsome
    exact lookup_map_set w k v hsome
  · rename_i hnone
    apply lookup_append_new
    rcases h : w.lookup k with _ | u
    · rfl
    · rw [h] at hnone
      simp at hnone

theorem weight_get_dictSet (w : List (String × ℚ)) (k : String) (v : ℚ) :
    weight_get (dictSet w k v) k = v := by
  unfold weight_get
  rw [lookup_dictSet]
  rfl

/-- The new weight after `update_weights`: the old weight (defaulting to
`1` for an unseen engine) times `1.05` or `0.95`, clamped to
`[0.1, 2.0]`. -/
theorem update_weights_get (w : List (String × ℚ)) (engine : String) (b : Bool) :
    weight_get (update_weights w engine b) engine =
      max (1 / 10) (min 2 (weight_get w engine * (if b then 21 / 20 else 19 / 20))) := by
  unfold update_weights
  by_cases hsome : (w.lookup engine).isSome
  · rw [if_pos hsome, weight_get_dictSet]
    cases b <;> simp
  · rw [if_neg hsome]
    have h1 : weight_get (dictSet w engine 1) engine = 1 := weight_get_dictSet w engine 1
    have h2 : weight_get w engine = 1 := by
      unfold weight_get
      rcases h : w.lookup engine with _ | u
      · rfl
      · rw [h] at hsome
        simp at hsome
    rw [weight_get_dictSet, h1, h2]
    cases b <;> simp

theorem update_weights_mem_bounds (w : List (String × ℚ)) (engine : String) (b : Bool) :
    1 / 10 ≤ weight_get (update_weights w engine b) engine ∧
      weight_get (update_weights w engine b) engine ≤ 2 := by
  rw [update_weights_get]
  constructor
  · exact le_max_left _ _
  · apply max_le
    · norm_num
    · exact min_le_left _ _

theorem weight_get_nonneg (w : List (String × ℚ)) (e : String)
    (hw : ∀ p ∈ w, 0 ≤ p.2) : 0 ≤ weight_get w e := by
  induction w with
  | nil =>
      unfold weight_get
      simp [List.lookup]
  | cons p ps ih =>
      unfold weight_get
      rcases hbeq : (e == p.1) with _ | _
      · simp only [List.lookup, hbeq]
        exact ih (fun q hq => hw q (List.mem_cons_of_mem p hq))
      · simp only [List.lookup, hbeq]
        exact hw p (List.mem_cons_self p ps)

/-! ## The consensus score as a mean over all pairs -/

theorem pairSims_length (results : List OCRResult) :
    (pairSims results).length = results.length.choose 2 := by
  unfold pairSims
  rw [List.length_flatMap]
  have h1 : (List.map (List.length ∘ fun i =>
      (List.range' (i + 1) (results.length - (i + 1))).map
        (fun j => similarity (textAt results i) (textAt results j)))
      (List.range results.length)).sum =
      ∑ i in Finset.range results.length, (results.length - 1 - i) := by
    have : ∀ i, (List.length ∘ fun i =>
        (List.range' (i + 1) (results.length - (i + 1))).map
          (fun j => similarity (textAt results i) (textAt results j))) i =
        results.length - 1 - i := by
      intro i
      simp only [Function.comp_apply, List.length_map, List.length_range']
      omega
    rw [List.map_congr_left (fun i _ => this i)]
    rfl
  rw [h1, Finset.sum_range_reflect (fun i => i) results.length]
  rw [Finset.sum_range_id, Nat.choose_two_right]

theorem pairSims_sum (results : List OCRResult) :
    (pairSims results).sum =
      ∑ i in Finset.range results.length,
        ∑ j in Finset.Ico (i + 1) results.length,
          similarity (textAt results i) (textAt results j) := by
  unfold pairSims
  rw [List.flatMap_def, List.sum_flatten, List.map_map]
  rfl

theorem pairSims_mem_bounds (results : List OCRResult) :
    ∀ x ∈ pairSims results, 0 ≤ x ∧ x ≤ 1 := by
  intro x hx
  unfold pairSims at hx
  rcases List.mem_flatMap.mp hx with ⟨i, _, hx2⟩
  rcases List.mem_map.mp hx2 with ⟨j, _, rfl⟩
  exact ⟨similarity_nonneg _ _, similarity_le_one _ _⟩

theorem calculate_consensus_spec (results : List OCRResult) (h2 : 2 ≤ results.length) :
    calculate_consensus results =
      (∑ i in Finset.range results.length,
        ∑ j in Finset.Ico (i + 1) results.length,
          similarity (textAt results i) (textAt results j)) /
        ((results.length.choose 2 : ℕ) : ℚ) ∧
      0 ≤ calculate_consensus results ∧ calculate_consensus results ≤ 1 := by
  have hlen := pairSims_length results
  have hchoose : 1 ≤ results.length.choose 2 := by
    rw [Nat.choose_two_right]
    have : 2 * 1 ≤ results.length * (results.length - 1) := by
      have := Nat.mul_le_mul h2 (by omega : 1 ≤ results.length - 1)
      omega
    omega
  have hne : (pairSims results).length ≠ 0 := by omega
  have hcc : calculate_consensus results =
      (pairSims results).sum / (((pairSims results).length : ℕ) : ℚ) := by
    unfold calculate_consensus
    rw [if_neg (by omega), if_neg hne]
  have hsum0 : 0 ≤ (pairSims results).sum :=
    List.sum_nonneg (fun x hx => (pairSims_mem_bounds results x hx).1)
  have hsum1 : (pairSims results).sum ≤ ((pairSims results).length : ℚ) := by
    have h := List.sum_le_card_nsmul (pairSims results) 1
      (fun x hx => (pairSims_mem_bounds results x hx).2)
    simpa using h
  have hposlen : (0 : ℚ) < ((pairSims results).length : ℚ) := by
    exact_mod_cast Nat.pos_of_ne_zero hne
  refine ⟨?_, ?_, ?_⟩
  · rw [hcc, pairSims_sum, hlen]
  · rw [hcc]
    positivity
  · rw [hcc]
    rw [div_le_one hposlen]
    exact hsum1

/-! ## Shape of successful `select_best` calls -/

theorem select_best_cons2 (w : List (String × ℚ)) (r1 r2 : OCRResult)
    (rest : List OCRResult) (strategy : OCRSelectionStrategy) :
    select_best w (r1 :: r2 :: rest) strategy =
      match strategyDispatch w (r1 :: r2 :: rest) strategy with
      | none => .error ("Unknown strategy: " ++ strategy.value)
      | some none => .error "AttributeError: selection returned no result"
      | some (some selected) =>
        .ok ⟨selected.text, selected.engine, r1 :: r2 :: rest,
          calculate_consensus (r1 :: r2 :: rest), determine_orientation (r1 :: r2 :: rest),
          ValidationStatus.pending, none, none⟩ := rfl

theorem dispatch_cw (w : List (String × ℚ)) (results : List OCRResult) :
    strategyDispatch w results .confidence_weighted =
      some (confidence_weighted_selection w results) := rfl

theorem dispatch_mv (w : List (String × ℚ)) (results : List OCRResult) :
    strategyDispatch w results .majority_vote = some (majority_vote_selection results) := rfl

theorem dispatch_learned (w : List (String × ℚ)) (results : List OCRResult) :
    strategyDispatch w results .learned = none := rfl

/-- Every successful call with at least two results returns the record
built from some dispatched selection, the consensus score of the full
list and the voted orientation. -/
theorem select_best_ok_shape (w : List (String × ℚ)) (results : List OCRResult)
    (s : OCRSelectionStrategy) (c : OCRConsensus) (h2 : 2 ≤ results.length)
    (hok : select_best w results s = .ok c) :
    ∃ sel, strategyDispatch w results s = some (some sel) ∧
      c = ⟨sel.text, sel.engine, results, calculate_consensus results,
        determine_orientation results, ValidationStatus.pending, none, none⟩ := by
  match results, h2 with
  | r1 :: r2 :: rest, _ =>
    rw [select_best_cons2] at hok
    rcases hd : strategyDispatch w (r1 :: r2 :: rest) s with _ | osel
    · rw [hd] at hok
      exact absurd hok (by simp)
    · rcases osel with _ | sel
      · rw [hd] at hok
        exact absurd hok (by simp)
      · rw [hd] at hok
        refine ⟨sel, rfl, ?_⟩
        have := Except.ok.inj hok
        exact this.symm

/-! ## Sample inputs used to instantiate the claims -/

/-- A result from `tesseract`: text `"a"`, confidence `0.9`, horizontal. -/
def sampleA : OCRResult := ⟨"tesseract", ['a'], 9 / 10, .horizontal, 0⟩

/-- A result from `easyocr`: text `"b"`, confidence `0.5`, vertical. -/
def sampleB : OCRResult := ⟨"easyocr", ['b'], 5 / 10, .vertical, 0⟩

/-- A second result with the same text as `sampleA` but another engine. -/
def sampleA2 : OCRResult := ⟨"easyocr", ['a'], 5 / 10, .vertical, 0⟩

/-- A weight store where `easyocr` has learned weight `1.2`. -/
def wAB : List (String × ℚ) := [("tesseract", 1), ("easyocr", 6 / 5)]

/-- The consensus record `select_best` returns on `[sampleA, sampleB]`
under CONFIDENCE_WEIGHTED with the default weights: `sampleA` wins,
the texts `"a"`/`"b"` share nothing so the consensus score is `0`, and
the orientation tie resolves to the first-seen `horizontal`. -/
def cAB : OCRConsensus :=
  ⟨['a'], "tesseract", [sampleA, sampleB], 0, .horizontal,
    ValidationStatus.pending, none, none⟩

/-- The consensus record returned on `[sampleA, sampleA2]` (identical
texts from different engines): consensus score `1`. -/
def cSame : OCRConsensus :=
  ⟨['a'], "tesseract", [sampleA, sampleA2], 1, .horizontal,
    ValidationStatus.pending, none, none⟩

/-- Three results with orientations vertical, horizontal, vertical. -/
def oV1 : OCRResult := ⟨"tesseract", ['a'], 9 / 10, .vertical, 0⟩

/-- Second result of the orientation example. -/
def oH2 : OCRResult := ⟨"easyocr", ['b'], 5 / 10, .horizontal, 0⟩

/-- Third result of the orientation example. -/
def oV3 : OCRResult := ⟨"manga_ocr", ['a'], 7 / 10, .vertical, 0⟩

/-- The consensus record returned on `[oV1, oH2, oV3]` under
CONFIDENCE_WEIGHTED with the default weights: similarities are
`0, 1, 0`, so the consensus score is `1/3`, and the majority
orientation is vertical. -/
def cOri : OCRConsensus :=
  ⟨['a'], "tesseract", [oV1, oH2, oV3], 1 / 3, .vertical,
    ValidationStatus.pending, none, none⟩

/-! ## The claims -/

/-- Claim C1: the claim says `select_best` with strategy LEARNED reaches a
distinct LEARNED branch computing `confidence * 0.3 + weight * 0.7`.  The
code does not: the dispatch tests `MAJORITY_VOTE` twice, so LEARNED falls
into the `else: raise ValueError` branch, even though the dead function
`learned_selection` implements exactly that score (here it would pick
`sampleB`, whose learned score `0.99` beats `sampleA`'s `0.97`). -/
theorem claim_C1 :
    select_best wAB [sampleA, sampleB] .learned = .error "Unknown strategy: learned" ∧
      learned_selection wAB [sampleA, sampleB] = some sampleB ∧
      learnedScore wAB sampleA < learnedScore wAB sampleB := by
  refine ⟨rfl, by with_unfolding_all decide, by with_unfolding_all decide⟩

/-- Claim C2: the claim says `select_best` fails with InvalidInput exactly
when the list is empty or the strategy is undeclared.  The code also fails
on the declared strategy LEARNED with two results (raising
`ValueError("Unknown strategy: learned")`), while the same input succeeds
under the other two declared strategies. -/
theorem claim_C2 :
    select_best default_weights [sampleA, sampleB] .learned =
        .error "Unknown strategy: learned" ∧
      (∃ c, select_best default_weights [sampleA, sampleB] .confidence_weighted = .ok c) ∧
      (∃ c, select_best default_weights [sampleA, sampleB] .majority_vote = .ok c) := by
  refine ⟨rfl, ⟨_, by with_unfolding_all rfl⟩, ⟨_, by with_unfolding_all rfl⟩⟩

/-- Claim C6: a single-result list short-circuits for every strategy:
the consensus trivially wraps the result, with `consensus_score` equal
to its confidence and no strategy logic invoked. -/
theorem claim_C6 (w : List (String × ℚ)) (r : OCRResult) (s : OCRSelectionStrategy) :
    select_best w [r] s =
      .ok ⟨r.text, r.engine, [r], r.confidence, r.orientation,
        ValidationStatus.pending, none, none⟩ := rfl

/-- Claim C10: the single-result short-circuit precedes strategy
validation, so `select_best([r], s)` succeeds for every strategy value
(including LEARNED, which the broken dispatch treats as unknown), and
the unknown-strategy failure can only arise for lists of length at
least two. -/
theorem claim_C10 :
    (∀ (w : List (String × ℚ)) (r : OCRResult) (s : OCRSelectionStrategy),
      ∃ c, select_best w [r] s = .ok c) ∧
      (∀ (w : List (String × ℚ)) (results : List OCRResult) (s : OCRSelectionStrategy),
        select_best w results s = .error ("Unknown strategy: " ++ s.value) →
        2 ≤ results.length) := by
  constructor
  · intro w r s
    exact ⟨_, rfl⟩
  · intro w results s h
    match results with
    | [] =>
        rw [show select_best w [] s = .error "No OCR results provided" from rfl] at h
        have hs := Except.error.inj h
        cases s <;> exact absurd hs (by decide)
    | [r] =>
        rw [show select_best w [r] s =
          .ok ⟨r.text, r.engine, [r], r.confidence, r.orientation,
            ValidationStatus.pending, none, none⟩ from rfl] at h
        exact absurd h (by simp)
    | r1 :: r2 :: rest => simp

/-- Claim C10 witness: a singleton list succeeds even under LEARNED, and
the unknown-strategy error observed on a concrete two-element call
implies its length bound. -/
theorem claim_C10_witness :
    (∃ c, select_best default_weights [sampleA] .learned = .ok c) ∧
      2 ≤ ([sampleA, sampleB] : List OCRResult).length :=
  ⟨claim_C10.1 default_weights sampleA .learned,
   claim_C10.2 default_weights [sampleA, sampleB] .learned rfl⟩

set_option maxRecDepth 100000 in
/-- Claim C5 counterexample: the similarity used by the consensus engine
(`difflib.SequenceMatcher(None, ., .).ratio()`) is not symmetric:
on `"abRxxSab"` versus `"xxQab"` it returns `4/13` one way and `8/13`
the other, because `find_longest_match` prefers the earliest longest
block of the first sequence. -/
theorem claim_C5_counterexample :
    similarity ['a', 'b', 'R', 'x', 'x', 'S', 'a', 'b'] ['x', 'x', 'Q', 'a', 'b'] ≠
      similarity ['x', 'x', 'Q', 'a', 'b'] ['a', 'b', 'R', 'x', 'x', 'S', 'a', 'b'] := by
  with_unfolding_all decide

/-- Claim C5 (amended): the similarity score lies in `[0,1]`, is
reflexive (`similarity(a,a) = 1` for every string, the autojunk
heuristic notwithstanding), and `similarity("","") = 1`; the symmetry
clause of the original claim is false and is dropped. -/
theorem claim_C5 (a b : List Char) :
    0 ≤ similarity a b ∧ similarity a b ≤ 1 ∧ similarity a a = 1 ∧
      similarity ([] : List Char) ([] : List Char) = 1 :=
  ⟨similarity_nonneg a b, similarity_le_one a b, similarity_self a, rfl⟩

/-- Claim C9 counterexample: with a configured path whose file exists
but does not parse, `load_weights` propagates the parse error instead
of degrading to the default mapping — the function has no exception
handling at all. -/
theorem claim_C9_counterexample :
    load_weights (some "weights.json") (fun _ => some WeightsFile.corrupt) =
      .error "json.load raised" := rfl

/-- Claim C9 (amended): `load_weights` returns the built-in defaults
`{tesseract: 1.0, easyocr: 1.0, manga_ocr: 1.2}` when no path is
configured, when the configured path is empty (falsy), or when the file
is absent; but an existing unreadable/corrupt file makes the call fail
rather than degrade to defaults. -/
theorem claim_C9 :
    (∀ fs, load_weights none fs = .ok default_weights) ∧
      (∀ p fs, fs p = none → load_weights (some p) fs = .ok default_weights) ∧
      (∀ fs, load_weights (some "") fs = .ok default_weights) := by
  refine ⟨fun fs => rfl, ?_, fun fs => rfl⟩
  intro p fs hfs
  unfold load_weights
  dsimp only
  by_cases hp : p ≠ ""
  · rw [if_pos hp, hfs]
  · rw [if_neg hp]

/-- Claim C9 witness: a concrete absent file degrades to the defaults. -/
theorem claim_C9_witness :
    load_weights (some "weights.json") (fun _ => none) = .ok default_weights :=
  claim_C9.2.1 "weights.json" (fun _ => none) rfl

/-- Claim C3: under CONFIDENCE_WEIGHTED with at least two results (and
the code's maintained invariants: nonnegative stored weights and
validated confidences), `select_best` succeeds and selects the first
result attaining the maximal `confidence * weight(engine)` — every
earlier result scores strictly less, every later one at most as much —
with `weight_get` defaulting to `1` for unseen engines. -/
theorem claim_C3 (w : List (String × ℚ)) (results : List OCRResult)
    (h2 : 2 ≤ results.length) (hw : ∀ p ∈ w, 0 ≤ p.2)
    (hc : ∀ r ∈ results, 0 ≤ r.confidence) :
    ∃ c r l1 l2, select_best w results .confidence_weighted = .ok c ∧
      results = l1 ++ r :: l2 ∧
      (∀ x ∈ l1, x.confidence * weight_get w x.engine <
        r.confidence * weight_get w r.engine) ∧
      (∀ x ∈ l2, x.confidence * weight_get w x.engine ≤
        r.confidence * weight_get w r.engine) ∧
      c.selected_text = r.text ∧ c.selected_engine = r.engine := by
  match results, h2, hc with
  | r1 :: r2 :: rest, _, hc =>
    have hpos : ∀ x ∈ r1 :: r2 :: rest, (-1 : ℚ) < cwScore w x := by
      intro x hx
      have h1 : 0 ≤ x.confidence := hc x hx
      have h2' : 0 ≤ weight_get w x.engine := weight_get_nonneg w x.engine hw
      have h3 : 0 ≤ cwScore w x := mul_nonneg h1 h2'
      linarith
    obtain ⟨r, l1, l2, hsplit, hsel, hb, ha⟩ :=
      bestBy_spec (cwScore w) (r1 :: r2 :: rest) (by simp) hpos
    refine ⟨⟨r.text, r.engine, r1 :: r2 :: rest, calculate_consensus (r1 :: r2 :: rest),
      determine_orientation (r1 :: r2 :: rest), ValidationStatus.pending, none, none⟩,
      r, l1, l2, ?_, hsplit, hb, ha, rfl, rfl⟩
    rw [select_best_cons2, dispatch_cw]
    rw [show confidence_weighted_selection w (r1 :: r2 :: rest) =
      bestBy (cwScore w) (r1 :: r2 :: rest) from rfl, hsel]

/-- Claim C3 witness: with engine weights `tesseract = 1.0`,
`easyocr = 1.2` and confidences `0.9`/`0.5`, the scores are `0.9` and
`0.6`, so the `tesseract` result (`sampleA`) is selected. -/
theorem claim_C3_witness :
    (∃ c r l1 l2, select_best wAB [sampleA, sampleB] .confidence_weighted = .ok c ∧
      [sampleA, sampleB] = l1 ++ r :: l2 ∧
      (∀ x ∈ l1, x.confidence * weight_get wAB x.engine <
        r.confidence * weight_get wAB r.engine) ∧
      (∀ x ∈ l2, x.confidence * weight_get wAB x.engine ≤
        r.confidence * weight_get wAB r.engine) ∧
      c.selected_text = r.text ∧ c.selected_engine = r.engine) ∧
    select_best wAB [sampleA, sampleB] .confidence_weighted =
      .ok ⟨['a'], "tesseract", [sampleA, sampleB], 0, .horizontal,
        ValidationStatus.pending, none, none⟩ :=
  ⟨claim_C3 wAB [sampleA, sampleB] (by decide) (by with_unfolding_all decide)
      (by with_unfolding_all decide),
   by with_unfolding_all rfl⟩

/-- Claim C4: on every successful call with at least two results, the
consensus score is the mean of the pairwise similarities over all
`C(n,2)` index pairs `i < j` of the full input list, lies in `[0,1]`,
and equals `1` for two results with identical text from different
engines, for every strategy. -/
theorem claim_C4 :
    (∀ (w : List (String × ℚ)) (results : List OCRResult) (s : OCRSelectionStrategy)
        (c : OCRConsensus), 2 ≤ results.length → select_best w results s = .ok c →
      c.consensus_score =
          (∑ i in Finset.range results.length,
            ∑ j in Finset.Ico (i + 1) results.length,
              similarity (textAt results i) (textAt results j)) /
            ((results.length.choose 2 : ℕ) : ℚ) ∧
        0 ≤ c.consensus_score ∧ c.consensus_score ≤ 1) ∧
      (∀ (w : List (String × ℚ)) (s : OCRSelectionStrategy) (r1 r2 : OCRResult)
          (c : OCRConsensus), r1.text = r2.text → r1.engine ≠ r2.engine →
        select_best w [r1, r2] s = .ok c → c.consensus_score = 1) := by
  constructor
  · intro w results s c h2 hok
    obtain ⟨sel, hd, hcrec⟩ := select_best_ok_shape w results s c h2 hok
    have hcs : c.consensus_score = calculate_consensus results := by rw [hcrec]
    obtain ⟨he, h0, h1⟩ := calculate_consensus_spec results h2
    exact ⟨by rw [hcs, he], by rw [hcs]; exact h0, by rw [hcs]; exact h1⟩
  · intro w s r1 r2 c htext heng hok
    obtain ⟨sel, hd, hcrec⟩ := select_best_ok_shape w [r1, r2] s c (by simp) hok
    have hcs : c.consensus_score = calculate_consensus [r1, r2] := by rw [hcrec]
    have hpair : calculate_consensus [r1, r2] =
        (similarity r1.text r2.text + 0) / ((1 : ℕ) : ℚ) := rfl
    rw [hcs, hpair, htext, similarity_self]
    norm_num

/-- Claim C4 witness: on a concrete two-result call the consensus score
is the single-pair mean and lies in `[0,1]`; for two identical-text
results from different engines it is `1`. -/
theorem claim_C4_witness :
    (cAB.consensus_score =
        (∑ i in Finset.range ([sampleA, sampleB] : List OCRResult).length,
          ∑ j in Finset.Ico (i + 1) ([sampleA, sampleB] : List OCRResult).length,
            similarity (textAt [sampleA, sampleB] i) (textAt [sampleA, sampleB] j)) /
          ((([sampleA, sampleB] : List OCRResult).length.choose 2 : ℕ) : ℚ) ∧
      0 ≤ cAB.consensus_score ∧ cAB.consensus_score ≤ 1) ∧
    cSame.consensus_score = 1 :=
  ⟨claim_C4.1 default_weights [sampleA, sampleB] .confidence_weighted cAB (by decide)
      (by with_unfolding_all rfl),
   claim_C4.2 default_weights .confidence_weighted sampleA sampleA2 cSame rfl
      (by decide) (by with_unfolding_all rfl)⟩

/-- Claim C7: on every successful call with at least two results the
returned orientation is the most frequent orientation among the
results, ties broken in favour of the value first encountered in input
order. -/
theorem claim_C7 (w : List (String × ℚ)) (results : List OCRResult)
    (s : OCRSelectionStrategy) (c : OCRConsensus) (h2 : 2 ≤ results.length)
    (hok : select_best w results s = .ok c) :
    c.orientation ∈ results.map OCRResult.orientation ∧
      (∀ o ∈ results.map OCRResult.orientation,
        (results.map OCRResult.orientation).count o ≤
          (results.map OCRResult.orientation).count c.orientation) ∧
      (∀ o ∈ results.map OCRResult.orientation,
        (results.map OCRResult.orientation).count o =
            (results.map OCRResult.orientation).count c.orientation →
          List.indexOf c.orientation (results.map OCRResult.orientation) ≤
            List.indexOf o (results.map OCRResult.orientation)) := by
  obtain ⟨sel, hd, hcrec⟩ := select_best_ok_shape w results s c h2 hok
  have hco : c.orientation = determine_orientation results := by rw [hcrec]
  have hne : results ≠ [] := by
    intro h
    rw [h] at h2
    simp at h2
  rw [hco]
  exact determine_orientation_spec results hne

/-- Claim C7 witness: orientations `[VERTICAL, HORIZONTAL, VERTICAL]`
resolve to `VERTICAL`. -/
theorem claim_C7_witness :
    (cOri.orientation ∈ ([oV1, oH2, oV3] : List OCRResult).map OCRResult.orientation ∧
      (∀ o ∈ ([oV1, oH2, oV3] : List OCRResult).map OCRResult.orientation,
        (([oV1, oH2, oV3] : List OCRResult).map OCRResult.orientation).count o ≤
          (([oV1, oH2, oV3] : List OCRResult).map OCRResult.orientation).count
            cOri.orientation) ∧
      (∀ o ∈ ([oV1, oH2, oV3] : List OCRResult).map OCRResult.orientation,
        (([oV1, oH2, oV3] : List OCRResult).map OCRResult.orientation).count o =
            (([oV1, oH2, oV3] : List OCRResult).map OCRResult.orientation).count
              cOri.orientation →
          List.indexOf cOri.orientation
              (([oV1, oH2, oV3] : List OCRResult).map OCRResult.orientation) ≤
            List.indexOf o (([oV1, oH2, oV3] : List OCRResult).map OCRResult.orientation))) ∧
    cOri.orientation = TextOrientation.vertical :=
  ⟨claim_C7 default_weights [oV1, oH2, oV3] .confidence_weighted cOri (by decide)
      (by with_unfolding_all rfl),
   rfl⟩

/-- Claim C8: `update_weights` multiplies the engine's weight (baseline
`1` for an unseen engine) by `1.05` when the feedback is positive and
by `0.95` otherwise, clamps to `[0.1, 2.0]`, takes `1.0` to `1.05` on a
correct adjustment, and any number (at least one) of consecutive
adjustments in either direction stays inside `[0.1, 2.0]`. -/
theorem claim_C8 :
    (∀ (w : List (String × ℚ)) (e : String) (b : Bool),
      weight_get (update_weights w e b) e =
        max (1 / 10) (min 2 (weight_get w e * (if b then 21 / 20 else 19 / 20)))) ∧
      (∀ (w : List (String × ℚ)) (e : String), w.lookup e = none → weight_get w e = 1) ∧
      (∀ (w : List (String × ℚ)) (e : String), weight_get w e = 1 →
        weight_get (update_weights w e true) e = 21 / 20) ∧
      (∀ (w : List (String × ℚ)) (e : String) (b : Bool) (n : Nat), 1 ≤ n →
        1 / 10 ≤ weight_get ((fun w' => update_weights w' e b)^[n] w) e ∧
          weight_get ((fun w' => update_weights w' e b)^[n] w) e ≤ 2) := by
  refine ⟨update_weights_get, ?_, ?_, ?_⟩
  · intro w e h
    unfold weight_get
    rw [h]
    rfl
  · intro w e h1
    rw [update_weights_get, h1]
    norm_num [min_def, max_def]
  · intro w e b n hn
    match n, hn with
    | n + 1, _ =>
      rw [Function.iterate_succ_apply']
      exact update_weights_mem_bounds _ e b

/-- Claim C8 witness: one correct adjustment from the default weight
`1.0` yields `1.05`, and three consecutive negative adjustments stay
within `[0.1, 2.0]`. -/
theorem claim_C8_witness :
    weight_get (update_weights default_weights "tesseract" true) "tesseract" = 21 / 20 ∧
      (1 / 10 ≤ weight_get
          ((fun w' => update_weights w' "easyocr" false)^[3] default_weights) "easyocr" ∧
        weight_get
          ((fun w' => update_weights w' "easyocr" false)^[3] default_weights) "easyocr" ≤ 2) :=
  ⟨claim_C8.2.2.1 default_weights "tesseract" (by with_unfolding_all decide),
   claim_C8.2.2.2 default_weights "easyocr" false 3 (by decide)⟩

end JOCR
